import Mathlib

/-!
A verification of the clean/merge pipeline of `ai_bias_corpus_toolkit`
(`clean_merge.py` and the identical clean half of `harvest_and_clean.py`).

The embedding models:
 - Python `str.strip()` / `str.split()` on the character list of a string
   (restricted to the ASCII whitespace characters recognised by
   `Char.isWhitespace`; the titles and links the pipeline manipulates are
   plain text where that restriction is immaterial);
 - `rapidfuzz.fuzz.token_set_ratio` (as `tokenSetScore`), scores taken in `ℚ`
   (rapidfuzz computes exact small rationals in double precision; every
   quantity appearing here is an exact rational);
 - `urllib.parse.urlparse(...).netloc` (as `netlocOf`), after the
   C0-control/space strip and tab/CR/LF removal performed by CPython's
   `urlsplit`; the `ValueError` CPython raises on a netloc with unbalanced
   brackets is outside the model, so theorems that depend on the netloc of an
   arbitrary link carry a `bracketFree` hypothesis;
 - a pandas DataFrame as a `Table`: an ordered list of column names plus one
   total cell-valuation per row (`Row := String → Cell`); cells of columns not
   listed in `cols` are never read by the pipeline;
 - `pandas.to_datetime(·, errors="coerce")` parameterised by an abstract date
   parser `parseDate : String → Option Int` (timestamps as integers); none of
   the verified properties depends on which date strings parse;
 - the greedy dedup scan of `dedupe` with its `seen` flags: a record is
   skipped exactly when some earlier kept record matched it, i.e. each
   representative removes its matches from the rest of the scan (`greedy`);
 - `df.sort_values("date_pub", ascending=False)` twice over.  As a function,
   `sortByDateDesc` (a `List.insertionSort` by publication date descending
   with null dates last) supplies one admissible output; every property
   proved about `dedupe` through it is independent of the order of records
   tied on a date.  As a relation, `sortValuesSpec` captures exactly what
   pandas guarantees about the result: `nargsort` sorts the non-null
   positions with the default `kind="quicksort"` (numpy introsort,
   documented as unstable, so any key-consistent order of records tied on a
   non-null date is admissible) and then appends the null (`NaT`) positions
   in their original input order.  Order properties of the sort itself are
   stated against the relation, never against the stable model.
-/

-- ===== Python string helpers =====

/-- Whitespace test used by `str.strip()` / `str.split()` (ASCII fragment). -/
def pyIsWs (c : Char) : Bool := c.isWhitespace

/-- Strip leading whitespace (Python `str.lstrip()`). -/
def pyLStrip (l : List Char) : List Char := l.dropWhile pyIsWs

/-- Strip trailing whitespace (Python `str.rstrip()`). -/
def pyRStrip (l : List Char) : List Char := (l.reverse.dropWhile pyIsWs).reverse

/-- Strip both ends (Python `str.strip()`), on character lists. -/
def pyStripChars (l : List Char) : List Char := pyRStrip (pyLStrip l)

/-- Python `str.strip()`. -/
def pyStrip (s : String) : String := ⟨pyStripChars s.data⟩

/-- Python `str.split()` with no separator: split on whitespace runs,
dropping empty pieces. -/
def pyWords : List Char → List (List Char)
  | [] => []
  | c :: cs =>
    if pyIsWs c then pyWords cs
    else (c :: cs.takeWhile (fun d => !pyIsWs d)) :: pyWords (cs.dropWhile (fun d => !pyIsWs d))
termination_by l => l.length
decreasing_by
  · simp
  · simp only [List.length_cons]
    exact Nat.lt_succ_of_le (List.dropWhile_sublist _).length_le

-- ===== token-set similarity (rapidfuzz fuzz.token_set_ratio) =====

/-- Lexicographic comparison of tokens by code point, Python's `sorted`
order for strings. -/
def tokLe : List Char → List Char → Bool
  | [], _ => true
  | _ :: _, [] => false
  | c :: cs, d :: ds => if c < d then true else if d < c then false else tokLe cs ds

/-- `tokLe` as a relation, for `List.insertionSort`. -/
def tokRel : List Char → List Char → Prop := fun a b => tokLe a b = true

instance : DecidableRel tokRel := fun _ _ => inferInstanceAs (Decidable (_ = true))

/-- Drop duplicate tokens (Python `set(...)`; which duplicates survive is
irrelevant, as the result is sorted before use). -/
def dedupTokens : List (List Char) → List (List Char)
  | [] => []
  | x :: xs => if x ∈ xs then dedupTokens xs else x :: dedupTokens xs

/-- The sorted set of whitespace-separated tokens of a string. -/
def tokenSet (s : String) : List (List Char) :=
  List.insertionSort tokRel (dedupTokens (pyWords s.data))

/-- `" ".join(...)` on character lists. -/
def joinSpaceChars : List (List Char) → List Char
  | [] => []
  | [w] => w
  | w :: ws => w ++ ' ' :: joinSpaceChars ws

/-- A title made of given words separated by single spaces. -/
def joinWords (ws : List (List Char)) : String := ⟨joinSpaceChars ws⟩

/-- Longest common subsequence length, the basis of the InDel distance used
by `rapidfuzz.fuzz.ratio`: `dist = len1 + len2 - 2 * lcs`. -/
def lcsLen : List Char → List Char → Nat
  | [], _ => 0
  | _ :: _, [] => 0
  | x :: xs, y :: ys =>
    if x = y then lcsLen xs ys + 1
    else max (lcsLen xs (y :: ys)) (lcsLen (x :: xs) ys)
termination_by a b => a.length + b.length
decreasing_by all_goals simp_arith

/-- `rapidfuzz.fuzz.ratio`: normalized InDel similarity on a 0-100 scale,
`100 * (1 - dist/(len1+len2)) = 100 * 2 * lcs / (len1+len2)`; 100 when both
strings are empty. -/
def fuzzScore (a b : List Char) : ℚ :=
  if a.length + b.length = 0 then 100
  else 100 * (2 * lcsLen a b) / (a.length + b.length)

/-- The body of `rapidfuzz.fuzz.token_set_ratio` (which applies no default
preprocessing), on the two sorted token sets: 0 if either set is empty; 100 if
one set contains the other (nonempty intersection and an empty difference);
otherwise the maximum of the plain ratio of the joined differences and the two
length-based ratios `100 - 100*dist/lensum` of `sect` against `sect + diff`. -/
def tokenSetScoreAux (ta tb : List (List Char)) : ℚ :=
  if ta = [] ∨ tb = [] then 0
  else
    let sect := ta.filter (fun w => w ∈ tb)
    let diffAB := ta.filter (fun w => w ∉ tb)
    let diffBA := tb.filter (fun w => w ∉ ta)
    if sect ≠ [] ∧ (diffAB = [] ∨ diffBA = []) then 100
    else
      let abJ := joinSpaceChars diffAB
      let baJ := joinSpaceChars diffBA
      let sectLen : ℚ := (joinSpaceChars sect).length
      let bonus : ℚ := if sectLen = 0 then 0 else 1
      let abLen : ℚ := abJ.length
      let baLen : ℚ := baJ.length
      let sectABLen := sectLen + bonus + abLen
      let sectBALen := sectLen + bonus + baLen
      let base := fuzzScore abJ baJ
      let sectAB := if sectABLen + sectLen = 0 then 100
        else 100 - 100 * (bonus + abLen) / (sectABLen + sectLen)
      let sectBA := if sectBALen + sectLen = 0 then 100
        else 100 - 100 * (bonus + baLen) / (sectBALen + sectLen)
      max base (max sectAB sectBA)

/-- `rapidfuzz.fuzz.token_set_ratio` on two strings. -/
def tokenSetScore (s1 s2 : String) : ℚ :=
  tokenSetScoreAux (tokenSet s1) (tokenSet s2)

-- ===== the dedup scan =====

/-- Python truthiness of an optional string (`None` and `""` are falsy), as
used by `di and dj and di==dj and score>=thresh`. -/
def truthyStr : Option String → Bool
  | none => false
  | some s => if s = "" then false else true

/-- The absorption test of the inner dedup loop:
`(di and dj and di==dj and score>=thresh) or (score>=98)`. -/
def absorbs (thresh : ℚ) (ti : String) (di : Option String) (tj : String) (dj : Option String) :
    Bool :=
  let score := tokenSetScore ti tj
  (truthyStr di && truthyStr dj && (if di = dj then true else false)
      && (if thresh ≤ score then true else false))
    || (if (98 : ℚ) ≤ score then true else false)

/-- The greedy scan with `seen` flags: each not-yet-absorbed record becomes a
representative and marks every later match as seen, which is the same as
removing its matches from the remainder of the scan. -/
def greedy (abs : α → α → Bool) : List α → List α
  | [] => []
  | x :: xs => x :: greedy abs (xs.filter (fun y => !(abs x y)))
termination_by l => l.length
decreasing_by
  simp only [List.length_cons]
  exact Nat.lt_succ_of_le (List.length_filter_le _ _)

/-- The dedup scan exactly as the source writes it: walk the sorted records
with their scan positions, skip a record whose position is already flagged
`seen`, otherwise keep it as a representative and flag as seen the position of
every later record it absorbs (`seen[j] = True`; re-flagging an already-seen
position changes nothing, so the update need not consult the current flags).
`scanSeen_enum_eq_greedy` proves this equal to `greedy`. -/
def scanSeen (abs : α → α → Bool) : List (Nat × α) → (Nat → Bool) → List α
  | [], _ => []
  | x :: xs, seen =>
    if seen x.1 then scanSeen abs xs seen
    else x.2 :: scanSeen abs xs (fun j => seen j || xs.any (fun y => y.1 == j && abs x.2 y.2))

/-- `a` must come strictly before `b` when sorting by date descending with
nulls last. -/
def dateBefore : Option Int → Option Int → Bool
  | some a, some b => if b < a then true else false
  | some _, none => true
  | none, _ => false

/-- `a` may come before `b` (non-strict order of the descending date sort). -/
def dateLeB (a b : Option Int) : Bool := !(dateBefore b a)

/-- The sort relation on anything carrying an optional date. -/
def keyRel (key : α → Option Int) : α → α → Prop := fun a b => dateLeB (key a) (key b) = true

instance (key : α → Option Int) : DecidableRel (keyRel key) :=
  fun _ _ => inferInstanceAs (Decidable (_ = true))

/-- `df.sort_values("date_pub", ascending=False)`: stable sort by date
descending, null dates last. -/
def sortByDateDesc (key : α → Option Int) (l : List α) : List α :=
  List.insertionSort (keyRel key) l

/-- `dedupe(df, thresh)` on any sequence carrying date, title and domain
accessors: sort by date descending (nulls last), then run the greedy scan. -/
def dedupeBy (key : α → Option Int) (ti : α → String) (dom : α → Option String)
    (thresh : ℚ) (l : List α) : List α :=
  greedy (fun a b => absorbs thresh (ti a) (dom a) (ti b) (dom b)) (sortByDateDesc key l)

-- ===== records and tables =====

/-- A cell of the table: null (None/NaN/NaT), a string, a parsed timestamp,
or an integer (the assigned ids). -/
inductive Cell where
  | null
  | str (s : String)
  | date (d : Int)
  | int (n : Int)
deriving DecidableEq

/-- A normalized record as the dedup engine sees it: parsed date, trimmed
title and link, derived domain, and the remaining schema fields untouched. -/
structure Record where
  date_pub : Option Int
  titre : String
  lien : String
  domain : Option String
  others : List Cell
deriving DecidableEq

/-- The absorption test between two records. -/
def recAbsorbs (thresh : ℚ) (a b : Record) : Bool :=
  absorbs thresh a.titre a.domain b.titre b.domain

/-- `dedupe` on normalized records. -/
def dedupe (thresh : ℚ) (l : List Record) : List Record :=
  dedupeBy Record.date_pub Record.titre Record.domain thresh l

/-- The initial sort of `dedupe` on records. -/
def sortRecords (l : List Record) : List Record := sortByDateDesc Record.date_pub l

/-- The greedy scan on position-indexed records of the sorted input, used to
state which scan positions get absorbed. -/
def dedupeScanIdx (thresh : ℚ) (l : List Record) : List (Nat × Record) :=
  greedy (fun a b => recAbsorbs thresh a.2 b.2) (sortRecords l).enum

/-- What `df.sort_values("date_pub", ascending=False)` actually guarantees
about its result, as a relation between the input and a candidate output of
position-tagged elements.  pandas' `nargsort` sorts the non-null positions
with the default `kind="quicksort"` (numpy introsort, documented as
unstable) and appends the null (`NaT`) positions in their original order, so
an admissible output is (1) a permutation of the position-tagged input,
(2) ordered by date descending with nulls last, and (3) identical to the
input on its null-keyed positions, in order; nothing more is promised about
positions tied on a non-null date. -/
def sortValuesSpec (key : α → Option Int) (l : List α) (s : List (Nat × α)) : Prop :=
  s.Perm l.enum
  ∧ s.Pairwise (keyRel (fun p => key p.2))
  ∧ s.filter (fun p => decide (key p.2 = none))
      = l.enum.filter (fun p => decide (key p.2 = none))

/-- A row: the cell of each named column. -/
def Row : Type := String → Cell

/-- The canonical schema of `clean_merge.py`. -/
def SCHEMA : List String :=
  ["id", "date_pub", "type_source", "titre", "lien", "langue", "controverse", "secteur",
   "territoire", "acteurs", "role_acteurs", "rapports_pouvoir", "issue", "mots_cles",
   "extrait_citation", "note_analytique", "source_name", "source_type", "source_country"]

/-- A DataFrame: ordered column names and the rows. -/
structure Table where
  cols : List String
  rows : List Row

/-- The schema columns absent from a table, in schema order. -/
def missingOf (t : Table) : List String := SCHEMA.filter (fun c => decide (c ∉ t.cols))

/-- Null-fill the given (absent) columns of a row (`df[c] = None`). -/
def ensureRow (missing : List String) (r : Row) : Row :=
  fun c' => if c' ∈ missing then Cell.null else r c'

/-- Overwrite one column of a row with a value computed from the row. -/
def updRow (c : String) (f : Row → Cell) (r : Row) : Row :=
  fun c' => if c' = c then f r else r c'

/-- The `for c in SCHEMA: if c not in df.columns: df[c] = None` loop: the
missing schema columns are appended in schema order, null-filled. -/
def ensureCols (t : Table) : Table :=
  { cols := t.cols ++ missingOf t, rows := t.rows.map (ensureRow (missingOf t)) }

/-- `df[c] = <series computed from df>`: overwrite the column if present,
append it otherwise. -/
def setCol (t : Table) (c : String) (f : Row → Cell) : Table :=
  { cols := if c ∈ t.cols then t.cols else t.cols ++ [c],
    rows := t.rows.map (updRow c f) }

/-- `fillna("")`. -/
def fillnaEmpty : Cell → Cell
  | .null => .str ""
  | c => c

/-- `.str.strip()`: trim strings; the `.str` accessor yields NaN on
non-string values. -/
def strStrip : Cell → Cell
  | .str s => .str (pyStrip s)
  | _ => .null

/-- `pd.to_datetime(·, errors="coerce")`, parameterised by the date parser:
strings parse or coerce to null, timestamps pass through, integers are taken
as epoch offsets, null stays null. -/
def toDatetime (parseDate : String → Option Int) : Cell → Cell
  | .str s =>
    match parseDate s with
    | some d => .date d
    | none => .null
  | .date d => .date d
  | .int n => .date n
  | .null => .null

-- ===== urlparse(...).netloc =====

/-- Characters allowed in a URL scheme after the initial letter. -/
def schemeChar (c : Char) : Bool := c.isAlphanum || c = '+' || c = '-' || c = '.'

/-- C0 control or space, stripped from the left by CPython `urlsplit`. -/
def c0OrSpace (c : Char) : Bool := c.toNat ≤ 32

/-- The sanitisation `urlsplit` applies before parsing: strip C0
controls/spaces from the left only (CPython deliberately preserves trailing
ones) and remove every tab, CR and LF. -/
def sanitizeUrl (l : List Char) : List Char :=
  (l.dropWhile c0OrSpace).filter
    (fun c => if c = '\t' then false else if c = '\n' then false else if c = '\r' then false
      else true)

/-- Remove a leading `scheme:` when the part before the first colon is a
nonempty ASCII letter followed by scheme characters. -/
def splitSchemeRest (l : List Char) : List Char :=
  match l.dropWhile (fun c => decide (c ≠ ':')), l.takeWhile (fun c => decide (c ≠ ':')) with
  | ':' :: rest, c :: cs => if c.isAlpha && cs.all schemeChar then rest else l
  | _, _ => l

/-- `urlparse(u).netloc`: present only after a leading `//` in the
(scheme-stripped) URL, running up to the first `/`, `?` or `#`; the empty
string otherwise. -/
def netlocOf (u : String) : String :=
  match splitSchemeRest (sanitizeUrl u.data) with
  | '/' :: '/' :: rest =>
    ⟨rest.takeWhile (fun c => decide (c ≠ '/' ∧ c ≠ '?' ∧ c ≠ '#'))⟩
  | _ => ""

/-- A link on which CPython `urlsplit` cannot raise its unbalanced-bracket
`ValueError`. -/
def bracketFree (u : String) : Bool := u.data.all (fun c => decide (c ≠ '[' ∧ c ≠ ']'))

/-- The domain lambda of `normalize`:
`urlparse(u).netloc if isinstance(u, str) and u else None`. -/
def deriveDomain : Cell → Cell
  | .str s => if s = "" then Cell.null else Cell.str (netlocOf s)
  | _ => Cell.null

-- ===== normalize and the clean pipeline =====

/-- The row transformation `normalize` applies: null-fill missing schema
columns, trim `titre` and `lien` (absent values become `""`), parse
`date_pub`, derive `domain` from the trimmed `lien`. -/
def normRow (parseDate : String → Option Int) (missing : List String) (r : Row) : Row :=
  updRow "domain" (fun r => deriveDomain (r "lien"))
    (updRow "date_pub" (fun r => toDatetime parseDate (r "date_pub"))
      (updRow "lien" (fun r => strStrip (fillnaEmpty (r "lien")))
        (updRow "titre" (fun r => strStrip (fillnaEmpty (r "titre")))
          (ensureRow missing r))))

/-- `normalize(df)` (named `normalizeTable`; plain `normalize` collides with a Mathlib name). -/
def normalizeTable (parseDate : String → Option Int) (t : Table) : Table :=
  let t1 := ensureCols t
  let t2 := setCol t1 "titre" (fun r => strStrip (fillnaEmpty (r "titre")))
  let t3 := setCol t2 "lien" (fun r => strStrip (fillnaEmpty (r "lien")))
  let t4 := setCol t3 "date_pub" (fun r => toDatetime parseDate (r "date_pub"))
  setCol t4 "domain" (fun r => deriveDomain (r "lien"))

/-- `df.dropna(subset=["titre"])`. -/
def dropnaTitre (t : Table) : Table :=
  { cols := t.cols,
    rows := t.rows.filter (fun r => if r "titre" = Cell.null then false else true) }

/-- `df.query("titre != ''")`. -/
def queryTitreNonempty (t : Table) : Table :=
  { cols := t.cols,
    rows := t.rows.filter (fun r => if r "titre" = Cell.str "" then false else true) }

/-- The date key of a row, as `sort_values("date_pub")` orders it. -/
def rowDate (r : Row) : Option Int :=
  match r "date_pub" with
  | .date d => some d
  | _ => none

/-- The title of a row as passed to the fuzzy matcher. -/
def rowTitre (r : Row) : String :=
  match r "titre" with
  | .str s => s
  | _ => ""

/-- The domain of a row as tested for truthiness by the dedup loop. -/
def rowDomain (r : Row) : Option String :=
  match r "domain" with
  | .str s => some s
  | _ => none

/-- `dedupe(df, thresh)` at the table level. -/
def tableDedupe (thresh : ℚ) (t : Table) : Table :=
  { cols := t.cols, rows := dedupeBy rowDate rowTitre rowDomain thresh t.rows }

/-- The observable failures of the clean stage. -/
inductive CleanError where
  | noRawData
  | insertDuplicate (c : String)
deriving DecidableEq

/-- `df.insert(0, "id", range(1, len(df)+1))`: pandas refuses to insert a
column that already exists (`allow_duplicates` defaults to `False`). -/
def insertIdCol (t : Table) : Except CleanError Table :=
  if "id" ∈ t.cols then .error (.insertDuplicate "id")
  else .ok
    { cols := "id" :: t.cols,
      rows := t.rows.enum.map
        (fun p => fun c' => if c' = "id" then Cell.int (p.1 + 1 : Int) else p.2 c') }

/-- `maybe_extract(df, do_extract)`, with the text extractor injected. -/
def maybeExtract (extractFn : String → Option String) (doExtract : Bool) (t : Table) : Table :=
  if doExtract then
    setCol t "fulltext" (fun r =>
      match fillnaEmpty (r "lien") with
      | .str s =>
        if s = "" then Cell.null
        else
          match extractFn s with
          | some txt => Cell.str txt
          | none => Cell.null
      | _ => Cell.null)
  else t

/-- `cols = SCHEMA + (["fulltext"] if "fulltext" in df.columns else [])`. -/
def finalCols (t : Table) : List String :=
  SCHEMA ++ (if "fulltext" ∈ t.cols then ["fulltext"] else [])

/-- `df = df[cols]`: project to the given columns in the given order. -/
def selectCols (t : Table) (cs : List String) : Table := { cols := cs, rows := t.rows }

/-- The clean stage (`main` of `clean_merge.py` / `run_clean`) after loading:
exit on an empty table, else normalize, drop empty titles, dedupe at the
default threshold 90, insert ids, optionally extract text, and project the
schema columns. -/
def runClean (parseDate : String → Option Int) (extractFn : String → Option String)
    (doExtract : Bool) (t : Table) : Except CleanError Table :=
  if t.rows.isEmpty then .error .noRawData
  else
    let df1 := normalizeTable parseDate t
    let df2 := queryTitreNonempty (dropnaTitre df1)
    let df3 := tableDedupe 90 df2
    match insertIdCol df3 with
    | .error e => .error e
    | .ok df4 =>
      let df5 := maybeExtract extractFn doExtract df4
      .ok (selectCols df5 (finalCols df5))

-- ===== helper lemmas: dropWhile and stripping =====

theorem dropWhile_dropWhile_eq (p : α → Bool) (l : List α) :
    (l.dropWhile p).dropWhile p = l.dropWhile p := by
  induction l with
  | nil => rfl
  | cons a l ih =>
    by_cases h : p a
    · simp [List.dropWhile_cons, h, ih]
    · simp [List.dropWhile_cons, h]

theorem exists_append_dropWhile (p : α → Bool) (l : List α) :
    ∃ u, l = u ++ l.dropWhile p := by
  induction l with
  | nil => exact ⟨[], rfl⟩
  | cons a l ih =>
    by_cases h : p a
    · obtain ⟨u, hu⟩ := ih
      exact ⟨a :: u, by simp [List.dropWhile_cons, h, ← hu]⟩
    · exact ⟨[], by simp [List.dropWhile_cons, h]⟩

theorem dropWhile_head_neg (p : α → Bool) (l : List α) (c : α) (cs : List α)
    (h : l.dropWhile p = c :: cs) : p c = false := by
  induction l with
  | nil => simp at h
  | cons a l ih =>
    by_cases hp : p a
    · exact ih (by simpa [List.dropWhile_cons, hp] using h)
    · rw [List.dropWhile_cons, if_neg (by simpa using hp)] at h
      cases h
      simpa using hp

theorem pyRStrip_idem (l : List Char) : pyRStrip (pyRStrip l) = pyRStrip l := by
  unfold pyRStrip
  rw [List.reverse_reverse, dropWhile_dropWhile_eq]

theorem exists_pyRStrip_append (l : List Char) : ∃ u, l = pyRStrip l ++ u := by
  obtain ⟨u, hu⟩ := exists_append_dropWhile pyIsWs l.reverse
  refine ⟨u.reverse, ?_⟩
  have := congrArg List.reverse hu
  simpa [pyRStrip] using this

theorem pyLStrip_pyRStrip_pyLStrip (l : List Char) :
    pyLStrip (pyRStrip (pyLStrip l)) = pyRStrip (pyLStrip l) := by
  cases h : pyRStrip (pyLStrip l) with
  | nil => rfl
  | cons c cs =>
    have hpref : ∃ u, pyLStrip l = (c :: cs) ++ u := by
      obtain ⟨u, hu⟩ := exists_pyRStrip_append (pyLStrip l)
      exact ⟨u, by rw [hu, h]⟩
    obtain ⟨u, hu⟩ := hpref
    have hc : pyIsWs c = false := dropWhile_head_neg pyIsWs l c (cs ++ u) (by simpa using hu)
    simp [pyLStrip, List.dropWhile_cons, hc]

theorem pyStripChars_idem (l : List Char) : pyStripChars (pyStripChars l) = pyStripChars l := by
  unfold pyStripChars
  rw [pyLStrip_pyRStrip_pyLStrip, pyRStrip_idem]

theorem pyStrip_idem (s : String) : pyStrip (pyStrip s) = pyStrip s := by
  simp [pyStrip, pyStripChars_idem]

-- ===== helper lemmas: the token order =====

theorem tokLe_total : ∀ a b : List Char, tokLe a b = true ∨ tokLe b a = true := by
  intro a
  induction a with
  | nil => intro b; left; cases b <;> rfl
  | cons c cs ih =>
    intro b
    cases b with
    | nil => right; rfl
    | cons d ds =>
      rcases lt_trichotomy c d with h | h | h
      · left; simp [tokLe, h]
      · subst h
        rcases ih ds with h' | h'
        · left; simp [tokLe, lt_irrefl, h']
        · right; simp [tokLe, lt_irrefl, h']
      · right; simp [tokLe, h]

theorem tokLe_trans : ∀ a b c : List Char,
    tokLe a b = true → tokLe b c = true → tokLe a c = true := by
  intro a
  induction a with
  | nil => intro b c _ _; cases c <;> rfl
  | cons x xs ih =>
    intro b c hab hbc
    cases b with
    | nil => simp [tokLe] at hab
    | cons y ys =>
      cases c with
      | nil => simp [tokLe] at hbc
      | cons z zs =>
        rcases lt_trichotomy x y with hxy | hxy | hxy
        · rcases lt_trichotomy y z with hyz | hyz | hyz
          · simp [tokLe, lt_trans hxy hyz]
          · subst hyz; simp [tokLe, hxy]
          · simp [tokLe, hyz, asymm hyz] at hbc
        · subst hxy
          rcases lt_trichotomy x z with hyz | hyz | hyz
          · simp [tokLe, hyz]
          · subst hyz
            simp only [tokLe, lt_irrefl, if_false] at hab hbc ⊢
            exact ih ys zs hab hbc
          · simp [tokLe, hyz, asymm hyz] at hbc
        · simp [tokLe, hxy, asymm hxy] at hab

theorem tokLe_antisymm : ∀ a b : List Char,
    tokLe a b = true → tokLe b a = true → a = b := by
  intro a
  induction a with
  | nil =>
    intro b _ hba
    cases b with
    | nil => rfl
    | cons d ds => simp [tokLe] at hba
  | cons x xs ih =>
    intro b hab hba
    cases b with
    | nil => simp [tokLe] at hab
    | cons y ys =>
      rcases lt_trichotomy x y with h | h | h
      · simp [tokLe, h, asymm h] at hba
      · subst h
        simp only [tokLe, lt_irrefl, if_false] at hab hba
        rw [ih ys hab hba]
      · simp [tokLe, h, asymm h] at hab

-- ===== helper lemmas: the date order =====

theorem dateLeB_total (a b : Option Int) : dateLeB a b = true ∨ dateLeB b a = true := by
  cases a <;> cases b <;> simp [dateLeB, dateBefore] <;> omega

theorem dateLeB_trans (a b c : Option Int) :
    dateLeB a b = true → dateLeB b c = true → dateLeB a c = true := by
  cases a <;> cases b <;> cases c <;> simp [dateLeB, dateBefore] <;> omega

theorem keyRel_total (key : α → Option Int) (a b : α) : keyRel key a b ∨ keyRel key b a :=
  dateLeB_total (key a) (key b)

theorem keyRel_trans (key : α → Option Int) (a b c : α) :
    keyRel key a b → keyRel key b c → keyRel key a c :=
  dateLeB_trans (key a) (key b) (key c)

-- ===== helper lemmas: the greedy scan =====

theorem greedy_sublist (abs : α → α → Bool) (l : List α) : (greedy abs l).Sublist l := by
  induction l using greedy.induct abs with
  | case1 => simp [greedy]
  | case2 x xs ih =>
    rw [greedy]
    exact (ih.trans (List.filter_sublist xs)).cons_cons x

theorem greedy_pairwise (abs : α → α → Bool) (l : List α) :
    (greedy abs l).Pairwise (fun a b => abs a b = false) := by
  induction l using greedy.induct abs with
  | case1 => simp [greedy]
  | case2 x xs ih =>
    rw [greedy, List.pairwise_cons]
    refine ⟨fun y hy => ?_, ih⟩
    have hy' := (greedy_sublist _ _).subset hy
    have := List.of_mem_filter hy'
    simpa using this

theorem greedy_eq_self_of_pairwise (abs : α → α → Bool) (l : List α)
    (h : l.Pairwise (fun a b => abs a b = false)) : greedy abs l = l := by
  induction l using greedy.induct abs with
  | case1 => simp [greedy]
  | case2 x xs ih =>
    rw [List.pairwise_cons] at h
    have hfull : xs.filter (fun y => !(abs x y)) = xs :=
      List.filter_eq_self.mpr (fun y hy => by simp [h.1 y hy])
    rw [hfull] at ih
    rw [greedy, hfull, ih h.2]

theorem greedy_drop_iff {β : Type} (abs : β → β → Bool) :
    ∀ s : List (Nat × β), s.Pairwise (fun p q => p.1 < q.1) →
      ∀ x ∈ s, (x ∉ greedy (fun a b => abs a.2 b.2) s ↔
        ∃ y ∈ greedy (fun a b => abs a.2 b.2) s, y.1 < x.1 ∧ abs y.2 x.2 = true) := by
  intro s
  induction s using greedy.induct (fun (a b : Nat × β) => abs a.2 b.2) with
  | case1 =>
    intro _ x hx
    simp at hx
  | case2 a rest ih =>
    intro hs x hx
    rw [greedy]
    have hrest : ∀ y ∈ rest, a.1 < y.1 := fun y hy => List.rel_of_pairwise_cons hs hy
    rcases List.mem_cons.mp hx with rfl | hxr
    · constructor
      · intro h
        exact absurd (List.mem_cons_self _ _) h
      · rintro ⟨y, hyK, hylt, -⟩ _
        rcases List.mem_cons.mp hyK with rfl | hyK'
        · exact absurd hylt (lt_irrefl _)
        · have : x.1 < y.1 :=
            hrest y ((List.filter_sublist rest).subset ((greedy_sublist _ _).subset hyK'))
          omega
    · have hax : a.1 < x.1 := hrest x hxr
      have hxa : x ≠ a := fun h => by rw [h] at hax; exact absurd hax (lt_irrefl _)
      by_cases habs : abs a.2 x.2 = true
      · constructor
        · intro _
          exact ⟨a, List.mem_cons_self _ _, hax, habs⟩
        · intro _
          intro hmem
          rcases List.mem_cons.mp hmem with h | hK
          · exact hxa h
          · have : x ∈ rest.filter (fun y => !(abs a.2 y.2)) :=
              (greedy_sublist _ _).subset hK
            have := List.of_mem_filter this
            simp [habs] at this
      · have hxf : x ∈ rest.filter (fun y => !(abs a.2 y.2)) :=
          List.mem_filter.mpr ⟨hxr, by simp [habs]⟩
        have hs' : (rest.filter (fun y => !(abs a.2 y.2))).Pairwise (fun p q => p.1 < q.1) :=
          List.Pairwise.sublist (List.filter_sublist rest) hs.of_cons
        have ihx := ih hs' x hxf
        constructor
        · intro h
          have hxK : x ∉ greedy (fun a b => abs a.2 b.2) (rest.filter (fun y => !(abs a.2 y.2))) :=
            fun hK => h (List.mem_cons_of_mem _ hK)
          obtain ⟨y, hyK, hylt, hyabs⟩ := ihx.mp hxK
          exact ⟨y, List.mem_cons_of_mem _ hyK, hylt, hyabs⟩
        · rintro ⟨y, hyK, hylt, hyabs⟩
          rcases List.mem_cons.mp hyK with rfl | hyK'
          · exact absurd hyabs (by simpa using habs)
          · have hxK := ihx.mpr ⟨y, hyK', hylt, hyabs⟩
            intro hmem
            rcases List.mem_cons.mp hmem with h | hK
            · exact hxa h
            · exact hxK hK

theorem greedy_map_snd {β : Type} (abs : β → β → Bool) (s : List (Nat × β)) :
    (greedy (fun a b => abs a.2 b.2) s).map Prod.snd = greedy abs (s.map Prod.snd) := by
  induction s using greedy.induct (fun (a b : Nat × β) => abs a.2 b.2) with
  | case1 => simp [greedy]
  | case2 a rest ih =>
    rw [greedy]
    simp only [List.map_cons]
    rw [greedy]
    congr 1
    rw [ih]
    congr 1
    have hc : (fun (y : Nat × β) => !(abs a.2 y.2)) = (fun y => !(abs a.2 y)) ∘ Prod.snd := rfl
    rw [hc, ← List.filter_map]

theorem enum_pairwise_fst {β : Type} (l : List β) :
    l.enum.Pairwise (fun p q => p.1 < q.1) := by
  rw [List.pairwise_iff_getElem]
  intro i j hi hj hij
  simp only [List.getElem_enum]
  simpa using hij

-- ===== helper lemmas: stability of the sort =====

theorem filter_orderedInsert_pos (r : α → α → Prop) [DecidableRel r] (p : α → Bool) (x : α)
    (hx : p x = true) (hskip : ∀ y, ¬ r x y → p y = false) :
    ∀ l : List α, (l.orderedInsert r x).filter p = x :: l.filter p := by
  intro l
  induction l with
  | nil => simp [List.orderedInsert, hx]
  | cons a l ih =>
    by_cases hr : r x a
    · simp [List.orderedInsert, hr, List.filter_cons, hx]
    · have hpa : p a = false := hskip a hr
      simp [List.orderedInsert, hr, List.filter_cons, hpa, ih]

theorem filter_orderedInsert_neg (r : α → α → Prop) [DecidableRel r] (p : α → Bool) (x : α)
    (hx : p x = false) :
    ∀ l : List α, (l.orderedInsert r x).filter p = l.filter p := by
  intro l
  induction l with
  | nil => simp [List.orderedInsert, hx]
  | cons a l ih =>
    by_cases hr : r x a
    · simp [List.orderedInsert, hr, List.filter_cons, hx]
    · simp [List.orderedInsert, hr, List.filter_cons, ih]

theorem filter_insertionSort (r : α → α → Prop) [DecidableRel r] (p : α → Bool)
    (hcompat : ∀ x y, p x = true → ¬ r x y → p y = false) (l : List α) :
    (l.insertionSort r).filter p = l.filter p := by
  induction l with
  | nil => rfl
  | cons a l ih =>
    by_cases hp : p a
    · rw [List.insertionSort, filter_orderedInsert_pos r p a hp (fun y hr => hcompat a y hp hr),
        ih, List.filter_cons, if_pos hp]
    · rw [List.insertionSort, filter_orderedInsert_neg r p a (by simpa using hp), ih,
        List.filter_cons, if_neg (by simpa using hp)]

-- ===== helper lemmas: lcs and fuzz ratio =====

theorem lcsLen_le_left : ∀ a b : List Char, lcsLen a b ≤ a.length := by
  intro a b
  induction a, b using lcsLen.induct with
  | case1 x => simp [lcsLen]
  | case2 c t => simp [lcsLen]
  | case3 xs y ys ih =>
    rw [lcsLen, if_pos rfl]
    simpa using ih
  | case4 x xs y ys hxy ih1 ih2 =>
    rw [lcsLen, if_neg hxy]
    simp only [List.length_cons, max_le_iff]
    exact ⟨le_trans ih1 (Nat.le_succ _), ih2⟩

theorem lcsLen_le_right : ∀ a b : List Char, lcsLen a b ≤ b.length := by
  intro a b
  induction a, b using lcsLen.induct with
  | case1 x => simp [lcsLen]
  | case2 c t => simp [lcsLen]
  | case3 xs y ys ih =>
    rw [lcsLen, if_pos rfl]
    simpa using ih
  | case4 x xs y ys hxy ih1 ih2 =>
    rw [lcsLen, if_neg hxy]
    simp only [List.length_cons, max_le_iff]
    exact ⟨ih1, le_trans ih2 (Nat.le_succ _)⟩

theorem lcsLen_comm : ∀ a b : List Char, lcsLen a b = lcsLen b a := by
  intro a b
  induction a, b using lcsLen.induct with
  | case1 x => cases x <;> simp [lcsLen]
  | case2 c t => simp [lcsLen]
  | case3 xs y ys ih =>
    rw [lcsLen, if_pos rfl, lcsLen, if_pos rfl, ih]
  | case4 x xs y ys hxy ih1 ih2 =>
    have hyx : ¬ y = x := fun h => hxy h.symm
    rw [lcsLen, if_neg hxy, lcsLen, if_neg hyx, ih1, ih2, max_comm]

theorem fuzzScore_comm (a b : List Char) : fuzzScore a b = fuzzScore b a := by
  unfold fuzzScore
  rw [lcsLen_comm, Nat.add_comm a.length, add_comm (a.length : ℚ)]

theorem fuzzScore_nonneg (a b : List Char) : 0 ≤ fuzzScore a b := by
  unfold fuzzScore
  split
  · norm_num
  · positivity

theorem fuzzScore_le_100 (a b : List Char) : fuzzScore a b ≤ 100 := by
  unfold fuzzScore
  split
  · exact le_refl 100
  · rename_i h
    rw [mul_div_assoc]
    have hpos : (0 : ℚ) < (a.length : ℚ) + (b.length : ℚ) := by
      have : 0 < a.length + b.length := Nat.pos_of_ne_zero h
      exact_mod_cast this
    have hfrac : (2 * lcsLen a b : ℚ) / ((a.length : ℚ) + (b.length : ℚ)) ≤ 1 := by
      rw [div_le_one hpos]
      have h1 : lcsLen a b ≤ a.length := lcsLen_le_left a b
      have h2 : lcsLen a b ≤ b.length := lcsLen_le_right a b
      have : 2 * lcsLen a b ≤ a.length + b.length := by omega
      exact_mod_cast this
    nlinarith

-- ===== helper lemmas: token sets =====

theorem mem_dedupTokens {x : List Char} : ∀ {l : List (List Char)},
    x ∈ dedupTokens l ↔ x ∈ l := by
  intro l
  induction l with
  | nil => simp [dedupTokens]
  | cons a l ih =>
    by_cases h : a ∈ l
    · rw [dedupTokens, if_pos h, List.mem_cons]
      rw [ih]
      constructor
      · exact Or.inr
      · rintro (rfl | hx)
        · exact h
        · exact hx
    · rw [dedupTokens, if_neg h, List.mem_cons, List.mem_cons, ih]

theorem nodup_dedupTokens : ∀ l : List (List Char), (dedupTokens l).Nodup := by
  intro l
  induction l with
  | nil => simp [dedupTokens]
  | cons a l ih =>
    by_cases h : a ∈ l
    · rw [dedupTokens, if_pos h]
      exact ih
    · rw [dedupTokens, if_neg h, List.nodup_cons]
      exact ⟨fun hmem => h (mem_dedupTokens.mp hmem), ih⟩

theorem sorted_tokenSet (s : String) : (tokenSet s).Sorted tokRel := by
  haveI : IsTotal (List Char) tokRel := ⟨tokLe_total⟩
  haveI : IsTrans (List Char) tokRel := ⟨tokLe_trans⟩
  exact List.sorted_insertionSort _ _

theorem nodup_tokenSet (s : String) : (tokenSet s).Nodup :=
  (List.perm_insertionSort tokRel _).nodup_iff.mpr (nodup_dedupTokens _)

theorem mem_tokenSet {w : List Char} {s : String} :
    w ∈ tokenSet s ↔ w ∈ pyWords s.data := by
  rw [tokenSet, (List.perm_insertionSort tokRel _).mem_iff, mem_dedupTokens]

theorem sorted_nodup_eq_of_mem_iff {l₁ l₂ : List (List Char)}
    (hs₁ : l₁.Sorted tokRel) (hs₂ : l₂.Sorted tokRel) (hn₁ : l₁.Nodup) (hn₂ : l₂.Nodup)
    (hmem : ∀ w, w ∈ l₁ ↔ w ∈ l₂) : l₁ = l₂ := by
  haveI : IsAntisymm (List Char) tokRel := ⟨tokLe_antisymm⟩
  exact List.eq_of_perm_of_sorted ((List.perm_ext_iff_of_nodup hn₁ hn₂).mpr hmem) hs₁ hs₂

theorem tokenSetScoreAux_nonneg (ta tb : List (List Char)) : 0 ≤ tokenSetScoreAux ta tb := by
  simp only [tokenSetScoreAux]
  split
  · exact le_refl 0
  · split
    · norm_num
    · exact le_trans (fuzzScore_nonneg _ _) (le_max_left _ _)

theorem scorePart_le_100 (d L : ℚ) (hd : 0 ≤ d) (hL : 0 ≤ L) :
    (if L = 0 then (100 : ℚ) else 100 - 100 * d / L) ≤ 100 := by
  split
  · exact le_refl 100
  · have h : 0 ≤ 100 * d / L := by positivity
    linarith

theorem tokenSetScoreAux_le_100 (ta tb : List (List Char)) : tokenSetScoreAux ta tb ≤ 100 := by
  simp only [tokenSetScoreAux]
  split
  · norm_num
  · split
    · exact le_refl 100
    · refine max_le (fuzzScore_le_100 _ _) (max_le ?_ ?_)
      · exact scorePart_le_100 _ _ (by split <;> positivity) (by split <;> positivity)
      · exact scorePart_le_100 _ _ (by split <;> positivity) (by split <;> positivity)

theorem tokenSetScoreAux_comm (ta tb : List (List Char))
    (hs1 : ta.Sorted tokRel) (hs2 : tb.Sorted tokRel) (hn1 : ta.Nodup) (hn2 : tb.Nodup) :
    tokenSetScoreAux ta tb = tokenSetScoreAux tb ta := by
  have hsect : tb.filter (fun w => decide (w ∈ ta)) = ta.filter (fun w => decide (w ∈ tb)) := by
    apply sorted_nodup_eq_of_mem_iff (List.Sorted.filter _ hs2) (List.Sorted.filter _ hs1)
      (hn2.filter _) (hn1.filter _)
    intro w
    simp only [List.mem_filter, decide_eq_true_eq]
    tauto
  simp only [tokenSetScoreAux]
  rw [hsect]
  by_cases hg1 : ta = [] ∨ tb = []
  · rw [if_pos hg1, if_pos hg1.symm]
  · by_cases hg2 : ta.filter (fun w => decide (w ∈ tb)) ≠ [] ∧
        (ta.filter (fun w => decide (w ∉ tb)) = [] ∨ tb.filter (fun w => decide (w ∉ ta)) = [])
    · conv_lhs => rw [if_neg hg1, if_pos hg2]
      conv_rhs => rw [if_neg (fun h => hg1 h.symm), if_pos ⟨hg2.1, hg2.2.symm⟩]
    · conv_lhs => rw [if_neg hg1, if_neg hg2]
      conv_rhs => rw [if_neg (fun h => hg1 h.symm), if_neg (fun h => hg2 ⟨h.1, h.2.symm⟩)]
      rw [fuzzScore_comm]
      congr 1
      exact max_comm _ _

theorem tokenSetScore_comm (s1 s2 : String) : tokenSetScore s1 s2 = tokenSetScore s2 s1 :=
  tokenSetScoreAux_comm _ _ (sorted_tokenSet s1) (sorted_tokenSet s2)
    (nodup_tokenSet s1) (nodup_tokenSet s2)

theorem tokenSetScore_nonneg (s1 s2 : String) : 0 ≤ tokenSetScore s1 s2 :=
  tokenSetScoreAux_nonneg _ _

theorem tokenSetScore_le_100 (s1 s2 : String) : tokenSetScore s1 s2 ≤ 100 :=
  tokenSetScoreAux_le_100 _ _

-- ===== helper lemmas: words of a space-joined title =====

theorem takeWhile_of_all {p : α → Bool} : ∀ {w : List α},
    (∀ c ∈ w, p c = true) → w.takeWhile p = w := by
  intro w
  induction w with
  | nil => intro _; rfl
  | cons a w ih =>
    intro h
    rw [List.takeWhile_cons, if_pos (h a (List.mem_cons_self _ _)),
      ih (fun c hc => h c (List.mem_cons_of_mem _ hc))]

theorem dropWhile_of_all {p : α → Bool} : ∀ {w : List α},
    (∀ c ∈ w, p c = true) → w.dropWhile p = [] := by
  intro w
  induction w with
  | nil => intro _; rfl
  | cons a w ih =>
    intro h
    rw [List.dropWhile_cons, if_pos (h a (List.mem_cons_self _ _))]
    exact ih (fun c hc => h c (List.mem_cons_of_mem _ hc))

theorem takeWhile_append_stop {p : α → Bool} (y : α) (rest : List α) (hy : p y = false) :
    ∀ (w : List α), (∀ c ∈ w, p c = true) → (w ++ y :: rest).takeWhile p = w := by
  intro w
  induction w with
  | nil => intro _; simp [List.takeWhile_cons, hy]
  | cons a w ih =>
    intro h
    rw [List.cons_append, List.takeWhile_cons, if_pos (h a (List.mem_cons_self _ _)),
      ih (fun c hc => h c (List.mem_cons_of_mem _ hc))]

theorem dropWhile_append_stop {p : α → Bool} (y : α) (rest : List α) (hy : p y = false) :
    ∀ (w : List α), (∀ c ∈ w, p c = true) → (w ++ y :: rest).dropWhile p = y :: rest := by
  intro w
  induction w with
  | nil => intro _; simp [List.dropWhile_cons, hy]
  | cons a w ih =>
    intro h
    rw [List.cons_append, List.dropWhile_cons, if_pos (h a (List.mem_cons_self _ _))]
    exact ih (fun c hc => h c (List.mem_cons_of_mem _ hc))

theorem pyWords_joinSpaceChars : ∀ ws : List (List Char),
    (∀ w ∈ ws, w ≠ [] ∧ ∀ c ∈ w, pyIsWs c = false) →
    pyWords (joinSpaceChars ws) = ws := by
  intro ws
  induction ws with
  | nil => intro _; simp [joinSpaceChars, pyWords]
  | cons w ws ih =>
    intro h
    obtain ⟨hw, hwc⟩ := h w (List.mem_cons_self _ _)
    cases ws with
    | nil =>
      cases w with
      | nil => exact absurd rfl hw
      | cons c cs =>
        have hc : pyIsWs c = false := hwc c (List.mem_cons_self _ _)
        rw [show joinSpaceChars [c :: cs] = c :: cs from rfl]
        rw [pyWords, if_neg (by simp [hc])]
        rw [takeWhile_of_all (fun d hd => by simp [hwc d (List.mem_cons_of_mem _ hd)])]
        rw [dropWhile_of_all (fun d hd => by simp [hwc d (List.mem_cons_of_mem _ hd)])]
        simp [pyWords]
    | cons w2 ws2 =>
      cases w with
      | nil => exact absurd rfl hw
      | cons c cs =>
        have hc : pyIsWs c = false := hwc c (List.mem_cons_self _ _)
        rw [show joinSpaceChars ((c :: cs) :: w2 :: ws2)
          = (c :: cs) ++ ' ' :: joinSpaceChars (w2 :: ws2) from rfl]
        rw [List.cons_append, pyWords, if_neg (by simp [hc])]
        have hcs : ∀ d ∈ cs, (fun d => !pyIsWs d) d = true :=
          fun d hd => by simp [hwc d (List.mem_cons_of_mem _ hd)]
        rw [takeWhile_append_stop ' ' _ (by simp [pyIsWs]) cs hcs]
        rw [dropWhile_append_stop ' ' _ (by simp [pyIsWs]) cs hcs]
        rw [pyWords, if_pos (by simp [pyIsWs])]
        rw [ih (fun v hv => h v (List.mem_cons_of_mem _ hv))]

theorem tokenSet_joinWords_of_perm (ws ws' : List (List Char))
    (h : ∀ w ∈ ws, w ≠ [] ∧ ∀ c ∈ w, pyIsWs c = false) (hperm : ws.Perm ws') :
    tokenSet (joinWords ws) = tokenSet (joinWords ws') := by
  have h' : ∀ w ∈ ws', w ≠ [] ∧ ∀ c ∈ w, pyIsWs c = false :=
    fun w hw => h w (hperm.symm.subset hw)
  apply sorted_nodup_eq_of_mem_iff (sorted_tokenSet _) (sorted_tokenSet _)
    (nodup_tokenSet _) (nodup_tokenSet _)
  intro w
  rw [mem_tokenSet, mem_tokenSet]
  rw [show (joinWords ws).data = joinSpaceChars ws from rfl]
  rw [show (joinWords ws').data = joinSpaceChars ws' from rfl]
  rw [pyWords_joinSpaceChars ws h, pyWords_joinSpaceChars ws' h']
  exact ⟨fun hm => hperm.subset hm, fun hm => hperm.symm.subset hm⟩

theorem tokenSetScore_reorder (ws ws' : List (List Char)) (sOther : String)
    (h : ∀ w ∈ ws, w ≠ [] ∧ ∀ c ∈ w, pyIsWs c = false) (hperm : ws.Perm ws') :
    tokenSetScore (joinWords ws) sOther = tokenSetScore (joinWords ws') sOther := by
  unfold tokenSetScore
  rw [tokenSet_joinWords_of_perm ws ws' h hperm]

-- ===== helper lemmas: the absorption condition =====

theorem ite_true_false_eq_true (P : Prop) [Decidable P] :
    ((if P then true else false) = true) ↔ P := by
  split <;> simp_all

theorem truthyStr_iff (o : Option String) :
    truthyStr o = true ↔ ∃ s, o = some s ∧ s ≠ "" := by
  cases o with
  | none => simp [truthyStr]
  | some s =>
    by_cases h : s = "" <;> simp [truthyStr, h]

theorem absorbs_iff (t : ℚ) (ti tj : String) (di dj : Option String) :
    absorbs t ti di tj dj = true ↔
      ((∃ d, di = some d ∧ dj = some d ∧ d ≠ "" ∧ t ≤ tokenSetScore ti tj)
        ∨ 98 ≤ tokenSetScore ti tj) := by
  simp only [absorbs, Bool.or_eq_true, Bool.and_eq_true, ite_true_false_eq_true, truthyStr_iff]
  constructor
  · rintro (⟨⟨⟨⟨d1, rfl, hne1⟩, ⟨d2, rfl, hne2⟩⟩, heq⟩, hth⟩ | h98)
    · left
      cases heq
      exact ⟨d1, rfl, rfl, hne1, hth⟩
    · right; exact h98
  · rintro (⟨d, rfl, rfl, hne, hth⟩ | h98)
    · left
      exact ⟨⟨⟨⟨d, rfl, hne⟩, ⟨d, rfl, hne⟩⟩, rfl⟩, hth⟩
    · right; exact h98

-- ===== helper lemmas: the sort and dedupe =====

theorem sorted_sortByDateDesc (key : α → Option Int) (l : List α) :
    (sortByDateDesc key l).Sorted (keyRel key) := by
  haveI : IsTotal α (keyRel key) := ⟨keyRel_total key⟩
  haveI : IsTrans α (keyRel key) := ⟨keyRel_trans key⟩
  exact List.sorted_insertionSort _ _

theorem perm_sortByDateDesc (key : α → Option Int) (l : List α) :
    (sortByDateDesc key l).Perm l :=
  List.perm_insertionSort _ _

theorem sortByDateDesc_eq_self (key : α → Option Int) (l : List α)
    (h : l.Sorted (keyRel key)) : sortByDateDesc key l = l :=
  List.Sorted.insertionSort_eq h

theorem dedupe_sublist (t : ℚ) (l : List Record) : (dedupe t l).Sublist (sortRecords l) :=
  greedy_sublist _ _

theorem dedupe_mem (t : ℚ) (l : List Record) : ∀ r ∈ dedupe t l, r ∈ l :=
  fun r hr => (perm_sortByDateDesc Record.date_pub l).subset ((greedy_sublist _ _).subset hr)

theorem dedupe_pairwise (t : ℚ) (l : List Record) :
    (dedupe t l).Pairwise (fun a b => recAbsorbs t a b = false) :=
  greedy_pairwise _ _

theorem dedupe_idem_generic (t : ℚ) (l : List Record) : dedupe t (dedupe t l) = dedupe t l := by
  have hsorted : (dedupe t l).Sorted (keyRel Record.date_pub) :=
    List.Pairwise.sublist (dedupe_sublist t l) (sorted_sortByDateDesc Record.date_pub l)
  show dedupeBy Record.date_pub Record.titre Record.domain t (dedupe t l) = dedupe t l
  unfold dedupeBy
  rw [sortByDateDesc_eq_self _ _ hsorted]
  exact greedy_eq_self_of_pairwise _ _ (dedupe_pairwise t l)

theorem dedupe_eq_scanIdx (t : ℚ) (l : List Record) :
    dedupe t l = (dedupeScanIdx t l).map Prod.snd := by
  rw [dedupeScanIdx, greedy_map_snd, List.enum_map_snd]
  rfl

-- ===== helper lemmas: tables =====

theorem normalizeTable_rows (pd : String → Option Int) (t : Table) :
    (normalizeTable pd t).rows = t.rows.map (normRow pd (missingOf t)) := by
  simp only [normalizeTable, setCol, ensureCols, List.map_map]
  rfl

theorem mem_setCol_cols (t : Table) (c c' : String) (f : Row → Cell) (h : c' ∈ t.cols) :
    c' ∈ (setCol t c f).cols := by
  simp only [setCol]
  split
  · exact h
  · exact List.mem_append_left _ h

theorem mem_normalizeTable_cols (pd : String → Option Int) (t : Table) (c : String)
    (hc : c ∈ SCHEMA) : c ∈ (normalizeTable pd t).cols := by
  have h1 : c ∈ (ensureCols t).cols := by
    by_cases h : c ∈ t.cols
    · exact List.mem_append_left _ h
    · refine List.mem_append_right _ ?_
      simp [missingOf, List.mem_filter, hc, h]
  simp only [normalizeTable]
  exact mem_setCol_cols _ _ _ _ (mem_setCol_cols _ _ _ _
    (mem_setCol_cols _ _ _ _ (mem_setCol_cols _ _ _ _ h1)))

theorem runClean_insert_error_aux (pd : String → Option Int) (t : Table) :
    insertIdCol (tableDedupe 90 (queryTitreNonempty (dropnaTitre (normalizeTable pd t))))
      = Except.error (CleanError.insertDuplicate "id") := by
  have hid : "id" ∈ (tableDedupe 90 (queryTitreNonempty (dropnaTitre (normalizeTable pd t)))).cols := by
    show "id" ∈ (normalizeTable pd t).cols
    exact mem_normalizeTable_cols pd t "id" (by simp [SCHEMA])
  rw [insertIdCol, if_pos hid]

theorem normRow_titre (pd : String → Option Int) (m : List String) (r : Row) :
    normRow pd m r "titre" = strStrip (fillnaEmpty (ensureRow m r "titre")) := by
  simp +decide [normRow, updRow]

theorem normRow_lien (pd : String → Option Int) (m : List String) (r : Row) :
    normRow pd m r "lien" = strStrip (fillnaEmpty (ensureRow m r "lien")) := by
  simp +decide [normRow, updRow]

theorem normRow_date_pub (pd : String → Option Int) (m : List String) (r : Row) :
    normRow pd m r "date_pub" = toDatetime pd (ensureRow m r "date_pub") := by
  simp +decide [normRow, updRow]

theorem normRow_domain (pd : String → Option Int) (m : List String) (r : Row) :
    normRow pd m r "domain" = deriveDomain (strStrip (fillnaEmpty (ensureRow m r "lien"))) := by
  simp +decide [normRow, updRow]

theorem normRow_other (pd : String → Option Int) (m : List String) (r : Row) (c : String)
    (h1 : c ≠ "domain") (h2 : c ≠ "date_pub") (h3 : c ≠ "lien") (h4 : c ≠ "titre") :
    normRow pd m r c = ensureRow m r c := by
  simp [normRow, updRow, h1, h2, h3, h4]

theorem strStrip_fillnaEmpty_cases (c : Cell) :
    strStrip (fillnaEmpty c) = Cell.null
      ∨ ∃ s, strStrip (fillnaEmpty c) = Cell.str (pyStrip s) := by
  cases c with
  | null => exact Or.inr ⟨"", rfl⟩
  | str s => exact Or.inr ⟨s, rfl⟩
  | date d => exact Or.inl rfl
  | int n => exact Or.inl rfl

theorem tableDedupe_rows_mem (th : ℚ) (t : Table) :
    ∀ r ∈ (tableDedupe th t).rows, r ∈ t.rows :=
  fun r hr => (perm_sortByDateDesc rowDate t.rows).subset ((greedy_sublist _ _).subset hr)

theorem dateLeB_none_left (b : Option Int) (h : dateLeB none b = true) : b = none := by
  cases b with
  | none => rfl
  | some v => simp [dateLeB, dateBefore] at h

theorem dateBefore_ne (a b : Option Int) (h : dateBefore a b = true) : a ≠ b := by
  cases a with
  | none => simp [dateBefore] at h
  | some x =>
    cases b with
    | none => simp
    | some y =>
      simp only [dateBefore] at h
      split at h
      · rename_i hlt
        intro he
        injection he with he'
        omega
      · exact absurd h (by simp)

theorem not_keyRel_before {key : α → Option Int} {x y : α} (h : ¬ keyRel key x y) :
    dateBefore (key y) (key x) = true := by
  simp only [keyRel, dateLeB, Bool.not_eq_true'] at h
  simpa using h

/-- The stable insertion-sort model is one admissible output of
`sort_values`: on the position-tagged input it satisfies every guarantee of
`sortValuesSpec`. -/
theorem sortValuesSpec_sortByDateDesc (key : α → Option Int) (l : List α) :
    sortValuesSpec key l (sortByDateDesc (fun p => key p.2) l.enum) := by
  refine ⟨perm_sortByDateDesc _ _, sorted_sortByDateDesc _ _, ?_⟩
  show (List.insertionSort (keyRel fun p => key p.2) l.enum).filter _ = _
  apply filter_insertionSort
  intro x y _ hr
  have hbef : dateBefore (key y.2) (key x.2) = true := not_keyRel_before hr
  rw [decide_eq_false_iff_not]
  intro hy
  rw [hy] at hbef
  simp [dateBefore] at hbef

-- ===== claim theorems =====

/-- C1: over the date-sorted input, the greedy scan of `dedupe` with
threshold `t` in `[0,100]` absorbs (drops) the record at scan position `j`
if and only if some kept representative at an earlier position `i < j`
matches it: either both records carry the same non-null, non-empty domain and
the title similarity score reaches `t`, or the score reaches 98 regardless of
domain. The matching representative is itself a kept (never absorbed) record,
and the plain `dedupe` output is exactly the kept records of this indexed
scan, so absorbed records are never used as representatives. -/
theorem C1_dedupe_absorbed_iff (t : ℚ) (ht0 : 0 ≤ t) (ht100 : t ≤ 100) (l : List Record)
    (j : Nat) (r : Record) (hmem : (j, r) ∈ (sortRecords l).enum) :
    ((j, r) ∉ dedupeScanIdx t l ↔
      ∃ i q, (i, q) ∈ dedupeScanIdx t l ∧ i < j ∧
        ((∃ d, q.domain = some d ∧ r.domain = some d ∧ d ≠ ""
            ∧ t ≤ tokenSetScore q.titre r.titre)
          ∨ 98 ≤ tokenSetScore q.titre r.titre))
    ∧ dedupe t l = (dedupeScanIdx t l).map Prod.snd := by
  constructor
  · have h := greedy_drop_iff (recAbsorbs t) (sortRecords l).enum
      (enum_pairwise_fst _) (j, r) hmem
    rw [dedupeScanIdx]
    constructor
    · intro hnot
      obtain ⟨y, hy, hlt, habs⟩ := h.mp hnot
      exact ⟨y.1, y.2, hy, hlt, (absorbs_iff t y.2.titre r.titre y.2.domain r.domain).mp habs⟩
    · rintro ⟨i, q, hq, hlt, hcond⟩
      exact h.mpr ⟨(i, q), hq, hlt,
        (absorbs_iff t q.titre r.titre q.domain r.domain).mpr hcond⟩
  · exact dedupe_eq_scanIdx t l

/-- C4: `dedupe` at the default threshold 90 is idempotent: a second run on
its own output absorbs nothing and returns the same records. -/
theorem C4_dedupe_idempotent (l : List Record) : dedupe 90 (dedupe 90 l) = dedupe 90 l :=
  dedupe_idem_generic 90 l

/-- C5 counterexample: the claim's clause that records tied on a (non-null)
date keep their original relative order is not a guarantee of the program.
`sort_values` with the default `kind="quicksort"` promises only
`sortValuesSpec`; on two records sharing the date `5`, the output that puts
the later input record first satisfies every promise of the sort, yet the
pair is not in original relative order. -/
theorem C5_counterexample :
    sortValuesSpec Record.date_pub
      [{ date_pub := some 5, titre := "a", lien := "", domain := none, others := [] }, { date_pub := some 5, titre := "b", lien := "", domain := none, others := [] }]
      [(1, { date_pub := some 5, titre := "b", lien := "", domain := none, others := [] }), (0, { date_pub := some 5, titre := "a", lien := "", domain := none, others := [] })]
    ∧ ¬ List.Pairwise (fun p q => p.2.date_pub = q.2.date_pub → p.1 ≤ q.1)
      [(1, ({ date_pub := some 5, titre := "b", lien := "", domain := none, others := [] } : Record)), (0, { date_pub := some 5, titre := "a", lien := "", domain := none, others := [] })] := by
  refine ⟨⟨?_, ?_, ?_⟩, ?_⟩ <;> decide

/-- C5 (amended): for every output `s` the program's sort may produce
(`sortValuesSpec`), (1) once a null-dated record appears, every later record
is null-dated, i.e. null dates sort last; (2) the null-dated records keep
their original relative order (their input positions increase along `s`);
(3) in the greedy scan over `s`, a dated record that is dropped always has a
kept, earlier-scanned, *dated* absorber, so a null-dated record is never
kept as cluster representative in preference to a dated record it is judged
a duplicate of. Original-order preservation for records tied on a non-null
date is NOT guaranteed (see the counterexample) and is not claimed here. -/
theorem C5_sort_spec_amended (thresh : ℚ) (l : List Record) (s : List (Nat × Record))
    (hs : sortValuesSpec Record.date_pub l s) :
    (s.Pairwise (fun p q => p.2.date_pub = none → q.2.date_pub = none))
    ∧ ((s.filter (fun p => decide (p.2.date_pub = none))).Pairwise (fun p q => p.1 < q.1))
    ∧ (∀ x ∈ s.enum, x.2.2.date_pub ≠ none →
        x ∉ greedy (fun a b => recAbsorbs thresh a.2.2 b.2.2) s.enum →
        ∃ y ∈ greedy (fun a b => recAbsorbs thresh a.2.2 b.2.2) s.enum,
          y.1 < x.1 ∧ recAbsorbs thresh y.2.2 x.2.2 = true ∧ y.2.2.date_pub ≠ none) := by
  obtain ⟨hperm, hsorted, hnulls⟩ := hs
  have hmono : s.Pairwise (fun p q => p.2.date_pub = none → q.2.date_pub = none) := by
    refine hsorted.imp ?_
    intro a b hab hna
    have hab' : dateLeB a.2.date_pub b.2.date_pub = true := hab
    rw [hna] at hab'
    exact dateLeB_none_left _ hab'
  refine ⟨hmono, ?_, ?_⟩
  · rw [hnulls]
    exact List.Pairwise.sublist (List.filter_sublist _) (enum_pairwise_fst l)
  · rintro ⟨j, q⟩ hx hdated hdrop
    have hchar := greedy_drop_iff (fun (a b : Nat × Record) => recAbsorbs thresh a.2 b.2)
      s.enum (enum_pairwise_fst s) (j, q) hx
    obtain ⟨y, hyK, hylt, hyabs⟩ := hchar.mp hdrop
    refine ⟨y, hyK, hylt, hyabs, ?_⟩
    obtain ⟨i, p⟩ := y
    intro hynull
    have hys : (i, p) ∈ s.enum := (greedy_sublist _ _).subset hyK
    rw [List.mem_enum_iff_getElem?] at hys hx
    obtain ⟨hilt, hie⟩ := List.getElem?_eq_some.mp hys
    obtain ⟨hjlt, hje⟩ := List.getElem?_eq_some.mp hx
    have h := (List.pairwise_iff_getElem.mp hmono) i j hilt hjlt hylt
    rw [hie, hje] at h
    exact hdated (h hynull)

/-- C10: the output of `dedupe` is a subsequence of the date-sorted input
(one unabsorbed representative per cluster, in sorted order); each surviving
record is an element of the input, every field unchanged (`dedupe` only
selects records, never modifies them); and no kept record matches an earlier
kept record, i.e. the output is exactly the unabsorbed records. -/
theorem C10_dedupe_frame (t : ℚ) (l : List Record) :
    (dedupe t l).Sublist (sortRecords l)
    ∧ (∀ r ∈ dedupe t l, r ∈ l)
    ∧ (dedupe t l).Pairwise (fun a b => recAbsorbs t a b = false) :=
  ⟨dedupe_sublist t l, dedupe_mem t l, dedupe_pairwise t l⟩

/-- C2: on every input table with at least one row, the clean stage fails at
the id-assignment step with pandas' duplicate-column error: `normalize` has
already materialized an `id` column (it is part of SCHEMA), so
`df.insert(0, "id", ...)` rejects the insertion and no output is produced. -/
theorem C2_insert_id_raises (pd : String → Option Int) (ef : String → Option String)
    (b : Bool) (t : Table) (h : t.rows ≠ []) :
    runClean pd ef b t = .error (.insertDuplicate "id") := by
  simp only [runClean]
  rw [if_neg (fun hh => h (List.isEmpty_iff.mp hh))]
  rw [runClean_insert_error_aux pd t]

/-- C3: the clean stage run on a concrete one-record input (a single raw row
with only a `titre` column) raises the duplicate-`id` insertion error instead
of producing a table with `id = 1`: the id-density property the spec states
is unreachable because the id-assignment step always fails (see C2). -/
theorem C3_clean_stage_crashes :
    runClean (fun _ => none) (fun _ => none) false
      { cols := ["titre"], rows := [fun _ => Cell.str "AI bias"] }
      = .error (.insertDuplicate "id") := by
  simp only [runClean]
  rw [if_neg (by simp)]
  rw [runClean_insert_error_aux]

/-- C6: after `normalize` and the title filter
(`dropna(subset=["titre"]).query("titre != ''")`), every surviving row has a
string `titre` that is non-empty and fixed by whitespace trimming; the same
holds for every row surviving `dedupe`; a normalized row whose `titre` is
null or trims to the empty string never survives the filter, so it is dropped
before deduplication; and a raw row whose title is missing (null) or trims to
the empty string normalizes to a row with `titre = ""`, hence is such a
dropped row. -/
theorem C6_titre_invariant (pd : String → Option Int) (t : Table) :
    (∀ r ∈ (queryTitreNonempty (dropnaTitre (normalizeTable pd t))).rows,
        ∃ s, r "titre" = Cell.str s ∧ s ≠ "" ∧ pyStrip s = s)
    ∧ (∀ r ∈ (tableDedupe 90 (queryTitreNonempty (dropnaTitre (normalizeTable pd t)))).rows,
        ∃ s, r "titre" = Cell.str s ∧ s ≠ "" ∧ pyStrip s = s)
    ∧ (∀ r ∈ (normalizeTable pd t).rows,
        (r "titre" = Cell.null ∨ r "titre" = Cell.str "") →
        r ∉ (queryTitreNonempty (dropnaTitre (normalizeTable pd t))).rows)
    ∧ (∀ r0 : Row,
        (r0 "titre" = Cell.null ∨ ∃ s, r0 "titre" = Cell.str s ∧ pyStrip s = "") →
        normRow pd (missingOf t) r0 "titre" = Cell.str "") := by
  have hmain : ∀ r ∈ (queryTitreNonempty (dropnaTitre (normalizeTable pd t))).rows,
      ∃ s, r "titre" = Cell.str s ∧ s ≠ "" ∧ pyStrip s = s := by
    intro r hr
    simp only [queryTitreNonempty, dropnaTitre, List.mem_filter] at hr
    obtain ⟨⟨hr0, hp1⟩, hp2⟩ := hr
    have hnn : r "titre" ≠ Cell.null := by
      intro he
      rw [if_pos he] at hp1
      exact Bool.false_ne_true hp1
    have hne : r "titre" ≠ Cell.str "" := by
      intro he
      rw [if_pos he] at hp2
      exact Bool.false_ne_true hp2
    rw [normalizeTable_rows] at hr0
    obtain ⟨r0, _, rfl⟩ := List.mem_map.mp hr0
    rw [normRow_titre] at hnn hne ⊢
    rcases strStrip_fillnaEmpty_cases (ensureRow (missingOf t) r0 "titre") with hcase | ⟨s, hcase⟩
    · exact absurd hcase hnn
    · refine ⟨pyStrip s, hcase, ?_, pyStrip_idem s⟩
      intro hbs
      rw [hcase, hbs] at hne
      exact hne rfl
  refine ⟨hmain, ?_, ?_, ?_⟩
  · intro r hr
    exact hmain r (tableDedupe_rows_mem _ _ r hr)
  · intro r _ hbad hmem
    simp only [queryTitreNonempty, dropnaTitre, List.mem_filter] at hmem
    obtain ⟨⟨_, hp1⟩, hp2⟩ := hmem
    rcases hbad with hb | hb
    · rw [if_pos hb] at hp1
      exact Bool.false_ne_true hp1
    · rw [if_pos hb] at hp2
      exact Bool.false_ne_true hp2
  · intro r0 hraw
    rw [normRow_titre]
    by_cases hmiss : "titre" ∈ missingOf t
    · rw [show ensureRow (missingOf t) r0 "titre" = Cell.null from if_pos hmiss]
      rfl
    · rw [show ensureRow (missingOf t) r0 "titre" = r0 "titre" from if_neg hmiss]
      rcases hraw with hb | ⟨s, hb, hs⟩
      · rw [hb]
        rfl
      · rw [hb]
        show Cell.str (pyStrip s) = Cell.str ""
        rw [hs]

/-- C7 (amended): `normalize` materializes every canonical SCHEMA column;
a schema column absent from the input ends up null-filled in every row,
except `titre` and `lien`, which end up as the empty string (not null)
because of `fillna("")`; and the final projection orders the persisted
columns exactly as SCHEMA, with `fulltext` appended as last column exactly
when text enrichment was requested (given the input carried no `fulltext`
column, as adapter output never does). -/
theorem C7_schema_amended (pd : String → Option Int) (t : Table) :
    (∀ c ∈ SCHEMA, c ∈ (normalizeTable pd t).cols)
    ∧ (∀ c ∈ SCHEMA, c ∉ t.cols → c ≠ "titre" → c ≠ "lien" →
        ∀ r ∈ (normalizeTable pd t).rows, r c = Cell.null)
    ∧ (∀ c, (c = "titre" ∨ c = "lien") → c ∉ t.cols →
        ∀ r ∈ (normalizeTable pd t).rows, r c = Cell.str "")
    ∧ (∀ (ef : String → Option String) (b : Bool) (t' : Table), "fulltext" ∉ t'.cols →
        (selectCols (maybeExtract ef b t') (finalCols (maybeExtract ef b t'))).cols
          = SCHEMA ++ (if b then ["fulltext"] else [])) := by
  refine ⟨fun c hc => mem_normalizeTable_cols pd t c hc, ?_, ?_, ?_⟩
  · intro c hc hcab h1 h2 r hr
    rw [normalizeTable_rows] at hr
    obtain ⟨r0, _, rfl⟩ := List.mem_map.mp hr
    have hmiss : c ∈ missingOf t := by
      simp [missingOf, List.mem_filter, hc, hcab]
    have hdom : c ≠ "domain" := by
      intro he
      rw [he] at hc
      simp [SCHEMA] at hc
    by_cases hdate : c = "date_pub"
    · subst hdate
      rw [normRow_date_pub]
      rw [show ensureRow (missingOf t) r0 "date_pub" = Cell.null from if_pos hmiss]
      rfl
    · rw [normRow_other pd _ r0 c hdom hdate h2 h1]
      exact if_pos hmiss
  · intro c hc hcab r hr
    rw [normalizeTable_rows] at hr
    obtain ⟨r0, _, rfl⟩ := List.mem_map.mp hr
    have hcs : c ∈ SCHEMA := by
      rcases hc with rfl | rfl <;> simp [SCHEMA]
    have hmiss : c ∈ missingOf t := by
      simp [missingOf, List.mem_filter, hcs, hcab]
    rcases hc with rfl | rfl
    · rw [normRow_titre]
      rw [show ensureRow (missingOf t) r0 "titre" = Cell.null from if_pos hmiss]
      rfl
    · rw [normRow_lien]
      rw [show ensureRow (missingOf t) r0 "lien" = Cell.null from if_pos hmiss]
      rfl
  · intro ef b t' hft
    cases b with
    | false =>
      show (finalCols (maybeExtract ef false t')) = SCHEMA ++ []
      rw [show maybeExtract ef false t' = t' from rfl]
      rw [finalCols, if_neg hft]
    | true =>
      show (finalCols (maybeExtract ef true t')) = SCHEMA ++ ["fulltext"]
      have hcols : (maybeExtract ef true t').cols = t'.cols ++ ["fulltext"] := by
        simp only [maybeExtract, if_pos, setCol]
        rw [if_neg hft]
      rw [finalCols, hcols, if_pos (List.mem_append_right _ (List.mem_cons_self _ _))]

/-- C7 counterexample: on an input table lacking the `titre` column,
`normalize` fills `titre` with the empty string, not null, contradicting the
claim that every absent canonical column is materialized null-filled. -/
theorem C7_counterexample :
    "titre" ∉ Table.cols { cols := ["source_name"], rows := [fun _ => Cell.null] }
    ∧ ((normalizeTable (fun _ => none)
        { cols := ["source_name"], rows := [fun _ => Cell.null] }).rows.map
          (fun r => r "titre")) = [Cell.str ""]
    ∧ Cell.str "" ≠ Cell.null := by
  refine ⟨by decide, ?_, by decide⟩
  rw [normalizeTable_rows]
  simp only [List.map_map, List.map_cons, List.map_nil, Function.comp]
  rw [normRow_titre]
  rw [show ensureRow (missingOf { cols := ["source_name"], rows := [fun _ => Cell.null] })
      (fun _ => Cell.null) "titre" = Cell.null from by
    simp +decide [ensureRow, missingOf, SCHEMA]]
  rfl

/-- C8 (amended): the title similarity score of `dedupe` lies in [0,100], is
symmetric, and is invariant under reordering the words of a title; but it is
NOT case- or punctuation-insensitive, because rapidfuzz applies no default
preprocessing (see the counterexample). -/
theorem C8_score_amended :
    (∀ s1 s2 : String, 0 ≤ tokenSetScore s1 s2 ∧ tokenSetScore s1 s2 ≤ 100)
    ∧ (∀ s1 s2 : String, tokenSetScore s1 s2 = tokenSetScore s2 s1)
    ∧ (∀ (ws ws' : List (List Char)) (sOther : String),
        (∀ w ∈ ws, w ≠ [] ∧ ∀ c ∈ w, pyIsWs c = false) → ws.Perm ws' →
        tokenSetScore (joinWords ws) sOther = tokenSetScore (joinWords ws') sOther) :=
  ⟨fun s1 s2 => ⟨tokenSetScore_nonneg s1 s2, tokenSetScore_le_100 s1 s2⟩,
   tokenSetScore_comm,
   fun ws ws' sOther h hp => tokenSetScore_reorder ws ws' sOther h hp⟩

/-- C8 counterexample: the score is neither case- nor
punctuation-insensitive: two identical titles score 100, but changing the
case of one letter drops the score to 0, and appending a period drops it to
80, so the claim that the score is unchanged by changing letter case or by
punctuation differences is false. -/
theorem C8_counterexample :
    (tokenSetScore "a" "a" = 100 ∧ tokenSetScore "A" "a" = 0)
    ∧ (tokenSetScore "ab" "ab" = 100 ∧ tokenSetScore "ab" "ab." = 80) := by
  have h1 : tokenSet "a" = [['a']] := by
    simp +decide [tokenSet, dedupTokens, pyWords, pyIsWs, String.data,
      List.insertionSort, List.orderedInsert]
  have h2 : tokenSet "A" = [['A']] := by
    simp +decide [tokenSet, dedupTokens, pyWords, pyIsWs, String.data,
      List.insertionSort, List.orderedInsert]
  have h3 : tokenSet "ab" = [['a', 'b']] := by
    simp +decide [tokenSet, dedupTokens, pyWords, pyIsWs, String.data,
      List.insertionSort, List.orderedInsert]
  have h4 : tokenSet "ab." = [['a', 'b', '.']] := by
    simp +decide [tokenSet, dedupTokens, pyWords, pyIsWs, String.data,
      List.insertionSort, List.orderedInsert]
  refine ⟨⟨?_, ?_⟩, ?_, ?_⟩
  · rw [tokenSetScore, h1]
    simp +decide [tokenSetScoreAux]
  · rw [tokenSetScore, h1, h2]
    have hx : ¬ ('A' = 'a') := by decide
    have hy : ¬ ('a' = 'A') := by decide
    repeat first
      | rfl
      | norm_num [tokenSetScoreAux, joinSpaceChars, fuzzScore, lcsLen, hx, hy]
      | simp +decide [tokenSetScoreAux, joinSpaceChars, fuzzScore, lcsLen, hx, hy]
  · rw [tokenSetScore, h3]
    simp +decide [tokenSetScoreAux]
  · rw [tokenSetScore, h3, h4]
    repeat first
      | rfl
      | norm_num [tokenSetScoreAux, joinSpaceChars, fuzzScore, lcsLen]
      | simp +decide [tokenSetScoreAux, joinSpaceChars, fuzzScore, lcsLen]

/-- C9 (amended): for every normalized row, the derived `domain` equals the
domain lambda applied to the normalized (trimmed) `lien`: null when `lien` is
empty (or was not a string), and otherwise the string `netloc` of the link,
which is the empty string - not null - when the URL has no `//`-introduced
host part. -/
theorem C9_domain_amended (pd : String → Option Int) (t : Table) :
    ∀ r ∈ (normalizeTable pd t).rows,
      r "domain" = deriveDomain (r "lien")
      ∧ (r "lien" = Cell.str "" → r "domain" = Cell.null)
      ∧ (∀ s, r "lien" = Cell.str s → s ≠ "" → r "domain" = Cell.str (netlocOf s)) := by
  intro r hr
  rw [normalizeTable_rows] at hr
  obtain ⟨r0, _, rfl⟩ := List.mem_map.mp hr
  have hd := normRow_domain pd (missingOf t) r0
  have hl := normRow_lien pd (missingOf t) r0
  refine ⟨by rw [hd, hl], ?_, ?_⟩
  · intro he
    rw [hd, ← hl, he]
    rfl
  · intro s hs hne
    rw [hd, ← hl, hs]
    simp [deriveDomain, hne]

/-- C9 counterexample: a record whose link is `example.com` (no scheme, so
`urlparse` finds no network-location) gets `domain` equal to the empty
string, not null, contradicting the claim that the domain is null whenever
the scheme/host portion is absent. -/
theorem C9_counterexample :
    ((normalizeTable (fun _ => none)
        { cols := ["lien"],
          rows := [fun c => if c = "lien" then Cell.str "example.com" else Cell.null] }).rows.map
      (fun r => r "domain")) = [Cell.str ""]
    ∧ Cell.str "" ≠ Cell.null := by
  refine ⟨?_, by decide⟩
  rw [normalizeTable_rows]
  simp only [List.map_map, List.map_cons, List.map_nil, Function.comp]
  rw [normRow_domain]
  have hrow : ensureRow (missingOf { cols := ["lien"], rows := [fun c => if c = "lien" then Cell.str "example.com" else Cell.null] }) (fun c => if c = "lien" then Cell.str "example.com" else Cell.null) "lien" = Cell.str "example.com" := by
    simp +decide [ensureRow, missingOf, SCHEMA]
  rw [hrow]
  have hstrip : strStrip (fillnaEmpty (Cell.str "example.com")) = Cell.str "example.com" := by
    simp +decide [strStrip, fillnaEmpty, pyStrip, pyStripChars, pyRStrip, pyLStrip, pyIsWs, List.dropWhile_cons]
  rw [hstrip]
  have hderive : deriveDomain (Cell.str "example.com") = Cell.str (netlocOf "example.com") := by
    simp +decide [deriveDomain]
  rw [hderive]
  have hnet : netlocOf "example.com" = "" := by
    simp +decide [netlocOf, sanitizeUrl, splitSchemeRest, c0OrSpace, schemeChar, String.data, List.dropWhile_cons, List.takeWhile_cons]
  rw [hnet]

-- ===== witnesses =====

theorem C1_witness :
    ((1 : Nat), ({ date_pub := some 0, titre := "x", lien := "", domain := none, others := [] } : Record))
      ∉ dedupeScanIdx 90
        [{ date_pub := some 1, titre := "x", lien := "", domain := none, others := [] },
         { date_pub := some 0, titre := "x", lien := "", domain := none, others := [] }] := by
  have hscore : tokenSetScore "x" "x" = 100 := by
    have h1 : tokenSet "x" = [['x']] := by
      simp +decide [tokenSet, dedupTokens, pyWords, pyIsWs, String.data,
        List.insertionSort, List.orderedInsert]
    rw [tokenSetScore, h1]
    simp +decide [tokenSetScoreAux]
  have hsort : sortRecords
      [({ date_pub := some 1, titre := "x", lien := "", domain := none, others := [] } : Record),
       { date_pub := some 0, titre := "x", lien := "", domain := none, others := [] }]
      = [({ date_pub := some 1, titre := "x", lien := "", domain := none, others := [] } : Record),
         { date_pub := some 0, titre := "x", lien := "", domain := none, others := [] }] := by
    simp +decide [sortRecords, sortByDateDesc, List.insertionSort, List.orderedInsert,
      keyRel, dateLeB, dateBefore]
  have hscan : dedupeScanIdx 90
      [({ date_pub := some 1, titre := "x", lien := "", domain := none, others := [] } : Record),
       { date_pub := some 0, titre := "x", lien := "", domain := none, others := [] }]
      = [((0 : Nat), ({ date_pub := some 1, titre := "x", lien := "", domain := none, others := [] } : Record))] := by
    rw [dedupeScanIdx, hsort]
    repeat first
      | rfl
      | norm_num [greedy, recAbsorbs, absorbs, truthyStr, hscore, List.enum, List.enumFrom]
      | simp +decide [greedy, recAbsorbs, absorbs, truthyStr, hscore, List.enum, List.enumFrom]
  refine ((C1_dedupe_absorbed_iff 90 (by norm_num) (by norm_num) _ 1 _ ?_).1).mpr
    ⟨0, { date_pub := some 1, titre := "x", lien := "", domain := none, others := [] },
      ?_, by omega, Or.inr (by rw [hscore]; norm_num)⟩
  · rw [hsort]
    simp [List.enum, List.enumFrom]
  · rw [hscan]
    simp

theorem C2_witness :
    runClean (fun _ => none) (fun _ => none) true
      { cols := [], rows := [fun _ => Cell.null] } = .error (.insertDuplicate "id") :=
  C2_insert_id_raises (fun _ => none) (fun _ => none) true
    { cols := [], rows := [fun _ => Cell.null] } (by simp)

theorem C5_amended_witness :
    List.Pairwise (fun p q => p.2.date_pub = none → q.2.date_pub = none)
      [(0, ({ date_pub := some 5, titre := "a", lien := "", domain := none, others := [] } : Record)), (1, { date_pub := none, titre := "b", lien := "", domain := none, others := [] })] :=
  (C5_sort_spec_amended 90
    [{ date_pub := some 5, titre := "a", lien := "", domain := none, others := [] }, { date_pub := none, titre := "b", lien := "", domain := none, others := [] }]
    [(0, { date_pub := some 5, titre := "a", lien := "", domain := none, others := [] }), (1, { date_pub := none, titre := "b", lien := "", domain := none, others := [] })]
    (by refine ⟨?_, ?_, ?_⟩ <;> decide)).1

theorem C6_witness :
    ∃ s, (normRow (fun _ => none)
        (missingOf { cols := ["titre"], rows := [fun c => if c = "titre" then Cell.str " ok " else Cell.null] })
        (fun c => if c = "titre" then Cell.str " ok " else Cell.null)) "titre"
      = Cell.str s ∧ s ≠ "" ∧ pyStrip s = s := by
  have htv : (normRow (fun _ => none) (missingOf { cols := ["titre"], rows := [fun c => if c = "titre" then Cell.str " ok " else Cell.null] }) (fun c => if c = "titre" then Cell.str " ok " else Cell.null)) "titre" = Cell.str "ok" := by
    rw [normRow_titre]
    have hrow : ensureRow (missingOf { cols := ["titre"], rows := [fun c => if c = "titre" then Cell.str " ok " else Cell.null] }) (fun c => if c = "titre" then Cell.str " ok " else Cell.null) "titre" = Cell.str " ok " := by
      simp +decide [ensureRow, missingOf, SCHEMA]
    rw [hrow]
    simp +decide [strStrip, fillnaEmpty, pyStrip, pyStripChars, pyRStrip, pyLStrip, pyIsWs,
      List.dropWhile_cons]
  refine (C6_titre_invariant (fun _ => none)
      { cols := ["titre"], rows := [fun c => if c = "titre" then Cell.str " ok " else Cell.null] }).1
    _ ?_
  simp only [queryTitreNonempty, dropnaTitre, List.mem_filter]
  refine ⟨⟨?_, ?_⟩, ?_⟩
  · rw [normalizeTable_rows]
    exact List.mem_map.mpr ⟨_, List.mem_cons_self _ _, rfl⟩
  · rw [htv]
    simp
  · rw [htv]
    simp

theorem C7_witness :
    (selectCols (maybeExtract (fun _ => none) true { cols := [], rows := [] })
      (finalCols (maybeExtract (fun _ => none) true { cols := [], rows := [] }))).cols
      = SCHEMA ++ ["fulltext"] := by
  have h := (C7_schema_amended (fun _ => none) { cols := [], rows := [] }).2.2.2
    (fun _ => none) true { cols := [], rows := [] } (by simp)
  simpa using h

theorem C8_witness :
    tokenSetScore (joinWords [['a'], ['b']]) "c" = tokenSetScore (joinWords [['b'], ['a']]) "c" :=
  C8_score_amended.2.2 [['a'], ['b']] [['b'], ['a']] "c" (by decide)
    (List.Perm.swap ['b'] ['a'] [])

theorem C9_witness :
    (normRow (fun _ => none)
        (missingOf { cols := ["lien"], rows := [fun c => if c = "lien" then Cell.str "http://example.com/p" else Cell.null] })
        (fun c => if c = "lien" then Cell.str "http://example.com/p" else Cell.null)) "domain"
      = deriveDomain ((normRow (fun _ => none)
        (missingOf { cols := ["lien"], rows := [fun c => if c = "lien" then Cell.str "http://example.com/p" else Cell.null] })
        (fun c => if c = "lien" then Cell.str "http://example.com/p" else Cell.null)) "lien") := by
  refine ((C9_domain_amended (fun _ => none)
      { cols := ["lien"], rows := [fun c => if c = "lien" then Cell.str "http://example.com/p" else Cell.null] })
    _ ?_).1
  rw [normalizeTable_rows]
  exact List.mem_map.mpr ⟨_, List.mem_cons_self _ _, rfl⟩

theorem C10_witness :
    ({ date_pub := none, titre := "w", lien := "", domain := none, others := [] } : Record)
      ∈ [({ date_pub := none, titre := "w", lien := "", domain := none, others := [] } : Record)] := by
  refine (C10_dedupe_frame 90
      [{ date_pub := none, titre := "w", lien := "", domain := none, others := [] }]).2.1
    _ ?_
  have hded : dedupe 90
      [({ date_pub := none, titre := "w", lien := "", domain := none, others := [] } : Record)]
      = [({ date_pub := none, titre := "w", lien := "", domain := none, others := [] } : Record)] := by
    show greedy _ (sortByDateDesc Record.date_pub _) = _
    rw [show sortByDateDesc Record.date_pub
        [({ date_pub := none, titre := "w", lien := "", domain := none, others := [] } : Record)]
        = [({ date_pub := none, titre := "w", lien := "", domain := none, others := [] } : Record)]
      from by simp [sortByDateDesc, List.insertionSort, List.orderedInsert]]
    rw [greedy]
    simp [greedy]
  rw [hded]
  simp

theorem C4_witness :
    dedupe 90 (dedupe 90
      [({ date_pub := none, titre := "t", lien := "", domain := none, others := [] } : Record)])
      = dedupe 90
      [({ date_pub := none, titre := "t", lien := "", domain := none, others := [] } : Record)] :=
  C4_dedupe_idempotent
    [{ date_pub := none, titre := "t", lien := "", domain := none, others := [] }]

-- ===== the literal seen-flag scan agrees with the greedy scan =====

theorem eq_of_fst_eq_of_pairwise_ne {α : Type} {xs : List (Nat × α)}
    (h : xs.Pairwise (fun p q => p.1 ≠ q.1)) {y z : Nat × α}
    (hy : y ∈ xs) (hz : z ∈ xs) (he : z.1 = y.1) : z = y := by
  by_contra hne
  have hsymm : Symmetric (fun p q : Nat × α => p.1 ≠ q.1) :=
    fun _ _ hab he2 => hab he2.symm
  exact (List.Pairwise.forall hsymm h hz hy hne) he

theorem scanSeen_eq_greedy {α : Type} (abs : α → α → Bool) :
    ∀ (s : List (Nat × α)) (seen : Nat → Bool),
      s.Pairwise (fun p q => p.1 ≠ q.1) →
      scanSeen abs s seen
        = (greedy (fun a b => abs a.2 b.2) (s.filter (fun y => !seen y.1))).map Prod.snd := by
  intro s
  induction s with
  | nil =>
    intro seen _
    simp [scanSeen, greedy]
  | cons x xs ih =>
    intro seen hpw
    by_cases hx : seen x.1
    · rw [show scanSeen abs (x :: xs) seen = scanSeen abs xs seen from by
        simp [scanSeen, hx]]
      rw [show (x :: xs).filter (fun y => !seen y.1) = xs.filter (fun y => !seen y.1) from by
        simp [List.filter_cons, hx]]
      exact ih seen hpw.of_cons
    · rw [show scanSeen abs (x :: xs) seen
          = x.2 :: scanSeen abs xs
              (fun j => seen j || xs.any (fun y => y.1 == j && abs x.2 y.2)) from by
        simp [scanSeen, hx]]
      rw [show (x :: xs).filter (fun y => !seen y.1)
          = x :: xs.filter (fun y => !seen y.1) from by
        simp [List.filter_cons, hx]]
      rw [greedy, List.map_cons]
      congr 1
      rw [ih _ hpw.of_cons]
      congr 1
      rw [List.filter_filter]
      congr 1
      apply List.filter_congr
      intro y hy
      by_cases habs : abs x.2 y.2 = true
      · have hany : xs.any (fun z => z.1 == y.1 && abs x.2 z.2) = true :=
          List.any_eq_true.mpr ⟨y, hy, by simp [habs]⟩
        simp [hany, habs]
      · have hany : xs.any (fun z => z.1 == y.1 && abs x.2 z.2) = false := by
          rw [List.any_eq_false]
          intro z hz
          simp only [Bool.and_eq_true, beq_iff_eq, not_and]
          intro hzy
          have hzyeq : z = y := eq_of_fst_eq_of_pairwise_ne hpw.of_cons hy hz hzy
          rw [hzyeq]
          simpa using habs
        simp [hany, habs]

theorem scanSeen_enum_eq_greedy {α : Type} (abs : α → α → Bool) (l : List α) :
    scanSeen abs l.enum (fun _ => false) = greedy abs l := by
  rw [scanSeen_eq_greedy abs l.enum (fun _ => false)
    ((enum_pairwise_fst l).imp (fun h => Nat.ne_of_lt h))]
  rw [show l.enum.filter (fun y => !(fun _ : Nat => false) y.1) = l.enum from by
    simp]
  rw [greedy_map_snd, List.enum_map_snd]

-- ===== concrete sanity checks of the model =====

theorem netlocOf_example : netlocOf "http://example.com/p" = "example.com" := by
  simp +decide [netlocOf, sanitizeUrl, splitSchemeRest, c0OrSpace, schemeChar, String.data,
    List.dropWhile_cons, List.takeWhile_cons]

theorem tokenSetScore_containment_example :
    tokenSetScore "City council approves new budget" "City council approves new budget plan"
      = 100 := by
  have h1 : tokenSet "City council approves new budget"
      = ["City".data, "approves".data, "budget".data, "council".data, "new".data] := by
    simp +decide [tokenSet, dedupTokens, pyWords, pyIsWs, String.data,
      List.insertionSort, List.orderedInsert, tokRel, tokLe]
  have h2 : tokenSet "City council approves new budget plan"
      = ["City".data, "approves".data, "budget".data, "council".data, "new".data,
         "plan".data] := by
    simp +decide [tokenSet, dedupTokens, pyWords, pyIsWs, String.data,
      List.insertionSort, List.orderedInsert, tokRel, tokLe]
  rw [tokenSetScore, h1, h2]
  simp +decide [tokenSetScoreAux]

theorem tokenSetScore_nonduplicate_example :
    tokenSetScore "Report on water policy" "Report on energy policy" = 1600 / 19
    ∧ (1600 / 19 : ℚ) < 90 := by
  refine ⟨?_, by norm_num⟩
  have h1 : tokenSet "Report on water policy"
      = ["Report".data, "on".data, "policy".data, "water".data] := by
    simp +decide [tokenSet, dedupTokens, pyWords, pyIsWs, String.data,
      List.insertionSort, List.orderedInsert, tokRel, tokLe]
  have h2 : tokenSet "Report on energy policy"
      = ["Report".data, "energy".data, "on".data, "policy".data] := by
    simp +decide [tokenSet, dedupTokens, pyWords, pyIsWs, String.data,
      List.insertionSort, List.orderedInsert, tokRel, tokLe]
  have hlcs : lcsLen "water".data "energy".data = 2 := by
    simp +decide [lcsLen, String.data]
  rw [tokenSetScore, h1, h2]
  repeat first
    | rfl
    | norm_num [tokenSetScoreAux, joinSpaceChars, fuzzScore, hlcs, String.data]
    | simp +decide [tokenSetScoreAux, joinSpaceChars, fuzzScore, hlcs, String.data]
